import Mathlib

/-!
Shallow embedding of `mkosi/util.py` (hellozee/mkosi).

Python's process-global effects (environment table, working directory,
umask, file-descriptor table) are modelled by explicit state passing:
each `contextlib.contextmanager` becomes a function that takes the scope
body as a function from state to `(Res, state)`, where `Res.exc e`
models the body (or an OS call) raising an exception with errno-style
code `e`.  Python `dict` is modelled as an insertion-ordered association
list where assignment overwrites in place.
-/

namespace Mkosi

/-- Outcome of a scope body or an OS call: normal completion or a raised
exception, identified by an errno-style code (2 = ENOENT, 13 = EACCES). -/
inductive Res where
  | ok : Res
  | exc : Nat → Res
deriving DecidableEq, Repr

/-- Replace the pair for key `k` by `(k, v)`, leaving other pairs alone. -/
def updateVal (k v : String) (p : String × String) : String × String :=
  if p.1 == k then (k, v) else p

/-- Python dict assignment `d[k] = v`: overwrite in place if the key is
present, else append at the end (insertion order). -/
def dictInsert (d : List (String × String)) (k v : String) : List (String × String) :=
  if d.any (fun p => p.1 == k) then
    d.map (updateVal k v)
  else
    d ++ [(k, v)]

/-- Python `dict(pairs)` / `d |= pairs`: perform the assignments in order,
later pairs overwriting earlier ones. -/
def dictOfPairs (init : List (String × String)) (l : List (String × String)) :
    List (String × String) :=
  l.foldl (fun acc p => dictInsert acc p.1 p.2) init

/-- Dictionary lookup: value of the first pair whose key matches. -/
def envLookup (d : List (String × String)) (k : String) : Option String :=
  match d with
  | [] => none
  | p :: rest => if p.1 == k then some p.2 else envLookup rest k

/-- The keys of an association list, in order. -/
def envKeys (d : List (String × String)) : List String := d.map (·.1)

/-- Value of the LAST pair of `l` whose key is `k`, if any. -/
def lastValue (l : List (String × String)) (k : String) : Option String :=
  match l with
  | [] => none
  | p :: rest =>
    match lastValue rest k with
    | some v => some v
    | none => if p.1 == k then some p.2 else none

/-- Number of pairs of `l` whose key is `k`. -/
def countKey (l : List (String × String)) (k : String) : Nat :=
  l.countP (fun p => p.1 == k)

/-! ### scopedenv -/

/-- The process state touched by `scopedenv`: the environment table
(`os.environ`) and Python's cached default temporary directory
(`tempfile.tempdir`). -/
structure EnvState where
  environ : List (String × String)
  tempdirCache : Option String
deriving DecidableEq, Repr

/-- `scopedenv(env)` from util.py lines 144-157: snapshot `os.environ`
(deep copy), merge `env` into it (`os.environ |= env`), clear the cached
temp directory, run the body, and in a `finally` restore the snapshot
wholesale and clear the cached temp directory again. -/
def scopedenv (env : List (String × String)) (body : EnvState → Res × EnvState)
    (s : EnvState) : Res × EnvState :=
  let old := s.environ
  let s1 : EnvState := { s with environ := dictOfPairs s.environ env }
  let s2 : EnvState := { s1 with tempdirCache := none }
  let (r, _s3) := body s2
  (r, { environ := old, tempdirCache := none })

/-! ### chdir -/

/-- The process state touched by `chdir`: the set of existing directories,
the current working directory, and a count of `os.chdir` invocations. -/
structure DirWorld where
  dirs : List String
  cwd : String
  chdirCalls : Nat
deriving DecidableEq, Repr

/-- `os.chdir(d)`: counts as one directory-change operation; succeeds iff
`d` exists, otherwise fails with ENOENT and leaves the cwd unchanged. -/
def osChdir (d : String) (w : DirWorld) : Option Nat × DirWorld :=
  let w1 := { w with chdirCalls := w.chdirCalls + 1 }
  if d ∈ w.dirs then (none, { w1 with cwd := d }) else (some 2, w1)

/-- `chdir(directory)` from util.py lines 106-118: if the current working
directory already equals `directory`, just run the body (no `os.chdir`
calls at all); otherwise `os.chdir(directory)`, run the body, and in a
`finally` `os.chdir` back to the old cwd.  An exception raised by the
`finally`'s own `os.chdir` replaces the in-flight result. -/
def chdir (directory : String) (body : DirWorld → Res × DirWorld) (w : DirWorld) :
    Res × DirWorld :=
  let old := w.cwd
  if old == directory then
    body w
  else
    match osChdir directory w with
    | (some e, w1) =>
      match osChdir old w1 with
      | (some e2, w2) => (.exc e2, w2)
      | (none, w2) => (.exc e, w2)
    | (none, w1) =>
      let (r, w2) := body w1
      match osChdir old w2 with
      | (some e2, w3) => (.exc e2, w3)
      | (none, w3) => (r, w3)

/-! ### flock -/

/-- The process state touched by `flock`: which paths exist, which are
readable, the open-descriptor table, and the next descriptor number. -/
structure FdWorld where
  files : List String
  readable : List String
  openFds : List Nat
  nextFd : Nat
deriving DecidableEq, Repr

/-- `os.open(path, O_CLOEXEC|O_RDONLY)`: ENOENT if the path does not
exist, EACCES if it is unreadable; on success allocates a fresh
descriptor.  On failure no descriptor is allocated. -/
def osOpen (p : String) (w : FdWorld) : Except Nat (Nat × FdWorld) :=
  if p ∈ w.files then
    if p ∈ w.readable then
      .ok (w.nextFd, { w with openFds := w.nextFd :: w.openFds, nextFd := w.nextFd + 1 })
    else .error 13
  else .error 2

/-- `os.close(fd)`: remove the descriptor from the open table. -/
def osClose (fd : Nat) (w : FdWorld) : FdWorld :=
  { w with openFds := w.openFds.erase fd }

/-- `flock(path)` from util.py lines 133-141: open the path read-only
(close-on-exec), set FD_CLOEXEC and take a blocking exclusive lock (no
modelled state change), yield the descriptor to the body, and in a
`finally` close the descriptor. -/
def flock (path : String) (body : Nat → FdWorld → Res × FdWorld) (w : FdWorld) :
    Res × FdWorld :=
  match osOpen path w with
  | .error e => (.exc e, w)
  | .ok (fd, w1) =>
    let (r, w2) := body fd w1
    (r, osClose fd w2)

/-! ### umask -/

/-- `os.umask(mask)`: set the process file-creation mask and return the
previous one.  State is the current mask. -/
def osUmask (mask : Nat) (cur : Nat) : Nat × Nat := (cur, mask)

/-- `umask(mask)` from util.py lines 179-185: set the mask (capturing the
old one), run the body, and in a `finally` restore the old mask. -/
def umask (mask : Nat) (body : Nat → Res × Nat) (cur : Nat) : Res × Nat :=
  let (old, cur1) := osUmask mask cur
  let (r, cur2) := body cur1
  let (_, cur3) := osUmask old cur2
  (r, cur3)

/-! ### INVOKING_USER -/

/-- Python `a or b` specialised to optional environment-variable strings:
`None` and the empty string are falsy. -/
def pyOrStr (a b : Option String) : Option String :=
  match a with
  | none => b
  | some s => if s == "" then b else some s

/-- Whitespace characters stripped by Python `str.strip` / `str.rstrip`. -/
def pyIsSpace (c : Char) : Bool :=
  c == ' ' || c == '\t' || c == '\n' || c == '\x0b' || c == '\x0c' || c == '\r'

/-- Python `str.rstrip()`: drop trailing whitespace. -/
def pyRstrip (s : String) : String :=
  String.mk (s.toList.reverse.dropWhile pyIsSpace).reverse

/-- Python `str.strip()`: drop leading and trailing whitespace. -/
def pyStrip (s : String) : String :=
  String.mk (((s.toList.dropWhile pyIsSpace).reverse.dropWhile pyIsSpace).reverse)

/-- Decimal value of a digit list. -/
def digitsToNat (l : List Char) : Nat :=
  l.foldl (fun acc c => acc * 10 + (c.toNat - '0'.toNat)) 0

/-- Python `int(s)` on a string: surrounding whitespace allowed, optional
sign, then one or more decimal digits; `none` models `ValueError`.
(Python's underscore digit grouping is not modelled; no input here uses it.) -/
def pyIntOfString (s : String) : Option Int :=
  let cs := (pyStrip s).toList
  let signed : Int × List Char :=
    match cs with
    | '+' :: rest => (1, rest)
    | '-' :: rest => (-1, rest)
    | rest => (1, rest)
  if signed.2 ≠ [] ∧ signed.2.all Char.isDigit then
    some (signed.1 * (digitsToNat signed.2 : Int))
  else none

/-- util.py line 81: `int(os.getenv("SUDO_UID") or os.getenv("PKEXEC_UID")
or os.getuid())`.  `none` models `int()` raising on a malformed value. -/
def resolveUid (sudoUid pkexecUid : Option String) (realUid : Nat) : Option Int :=
  match pyOrStr sudoUid pkexecUid with
  | some s => pyIntOfString s
  | none => some (realUid : Int)

/-- util.py line 82: `int(os.getenv("SUDO_GID") or os.getgid())`. -/
def resolveGid (sudoGid : Option String) (realGid : Nat) : Option Int :=
  match pyOrStr sudoGid none with
  | some s => pyIntOfString s
  | none => some (realGid : Int)

/-- The three class attributes of `INVOKING_USER` (util.py lines 80-83). -/
structure InvokingUser where
  uid : Int
  gid : Int
  invoked_as_root : Bool
deriving DecidableEq, Repr

/-- Initialization of `INVOKING_USER`'s class attributes from the
environment and the real process ids; `invoked_as_root = (uid == 0)`. -/
def mkInvokingUser (sudoUid pkexecUid sudoGid : Option String) (realUid realGid : Nat) :
    Option InvokingUser :=
  match resolveUid sudoUid pkexecUid realUid, resolveGid sudoGid realGid with
  | some u, some g => some { uid := u, gid := g, invoked_as_root := u == 0 }
  | _, _ => none

/-! ### is_power_of_2 -/

/-- util.py lines 188-189: `return x > 0 and (x & x - 1 == 0)`.
Python `&` binds looser than `-`, so this is `x & (x - 1)`. -/
def is_power_of_2 (x : Int) : Bool :=
  decide (x > 0) && (Int.land x (x - 1) == 0)

/-! ### read_env_file -/

/-- Levels of the Python `logging` module used in util.py. -/
inductive LogLevel where
  | debug | info | warning
deriving DecidableEq, Repr

/-- One emitted log record: the level and the arguments interpolated into
the message `f"{path}:{line_number}: bad line {line!r}"`. -/
structure LogEntry where
  level : LogLevel
  path : String
  lineNumber : Nat
  line : String
deriving DecidableEq, Repr

/-- Split a character stream at newlines; `acc` holds the reversed
current chunk.  A final empty chunk (content ending in a newline, or
empty content) yields no line, matching Python file iteration. -/
def pyLinesList : List Char → List Char → List String
  | [], acc => if acc.isEmpty then [] else [String.mk acc.reverse]
  | '\n' :: rest, acc => String.mk acc.reverse :: pyLinesList rest []
  | c :: rest, acc => pyLinesList rest (c :: acc)

/-- Python file iteration: the chunks ending in a newline, plus a final
chunk without one when the content does not end in a newline.  Iterating
over `""` yields nothing.  (Each yielded line is then `rstrip`ped by the
caller, so the trailing newlines are dropped here.) -/
def pyLines (content : String) : List String :=
  pyLinesList content.toList []

/-- Python `line.startswith("#")`: the first character is `#`. -/
def startsWithHash (s : String) : Bool :=
  match s.toList with
  | c :: _ => c == '#'
  | [] => false

/-- First character class of the key regex `[A-Z]`. -/
def isKeyStart (c : Char) : Bool := 'A' ≤ c && c ≤ 'Z'

/-- Continuation character class of the key regex `[A-Z_0-9]`. -/
def isKeyChar (c : Char) : Bool := isKeyStart c || c == '_' || ('0' ≤ c && c ≤ '9')

/-- `re.match(r"([A-Z][A-Z_0-9]+)=(.*)", line)`: an uppercase letter, at
least one more key character, then `=`; the rest of the line is the value.
Since `=` is not a key character, the greedy key group matches exactly the
maximal key-character run, which must be followed by `=`. -/
def matchEnvLine (line : String) : Option (String × String) :=
  match line.toList with
  | [] => none
  | c :: rest =>
    if isKeyStart c then
      let keyRest := rest.takeWhile isKeyChar
      let after := rest.dropWhile isKeyChar
      if keyRest.length ≥ 1 then
        match after with
        | '=' :: v => some (String.mk (c :: keyRest), String.mk v)
        | _ => none
      else none
    else none

/-- Scan the content of a Python string literal up to the closing quote
`q`; returns the unescaped content and the remaining characters.  Only the
common escapes are modelled; an unknown escape or a missing closing quote
yields `none` (a `SyntaxError`/`ValueError` from `ast.literal_eval`). -/
def scanLiteral (q : Char) : List Char → Option (List Char × List Char)
  | [] => none
  | c :: rest =>
    if c == q then some ([], rest)
    else if c == '\\' then
      match rest with
      | [] => none
      | e :: rest2 =>
        let ec : Option Char :=
          if e == 'n' then some '\n'
          else if e == 't' then some '\t'
          else if e == 'r' then some '\r'
          else if e == '\\' then some '\\'
          else if e == '\'' then some '\''
          else if e == '"' then some '"'
          else none
        match ec with
        | none => none
        | some c2 => (scanLiteral q rest2).map (fun pr => (c2 :: pr.1, pr.2))
    else (scanLiteral q rest).map (fun pr => (c :: pr.1, pr.2))

/-- `ast.literal_eval(val)` for a value starting with a quote: parse one
complete single- or double-quoted string literal spanning the whole value.
(Implicit literal concatenation such as `'a' 'b'` is not modelled.) -/
def pyLiteralEvalStr (s : String) : Option String :=
  match s.toList with
  | [] => none
  | q :: rest =>
    if q == '"' || q == '\'' then
      match scanLiteral q rest with
      | some (cs, []) => some (String.mk cs)
      | _ => none
    else none

/-- `if val and val[0] in "\"'": val = ast.literal_eval(val)` (util.py
lines 46-47): a value starting with a quote is unescaped as a literal
(`none` when that raises), any other value is kept verbatim. -/
def evalValue (val : String) : Option String :=
  match val.toList with
  | c :: _ => if c == '"' || c == '\'' then pyLiteralEvalStr val else some val
  | [] => some val

/-- The loop body of `read_env_file` (util.py lines 40-50), processing the
lines from `line_number = n` on.  Yields the pairs in file order and the
log records in file order; `none` models `ast.literal_eval` raising on a
malformed quoted value (the exception propagates out of the generator). -/
def processLines (path : String) : Nat → List String → Option (List (String × String) × List LogEntry)
  | _, [] => some ([], [])
  | n, rawLine :: rest =>
    let line := pyRstrip rawLine
    if line == "" || startsWithHash line then
      processLines path (n + 1) rest
    else
      match matchEnvLine line with
      | some nv =>
        match evalValue nv.2 with
        | none => none
        | some v =>
          (processLines path (n + 1) rest).map (fun pr => ((nv.1, v) :: pr.1, pr.2))
      | none =>
        (processLines path (n + 1) rest).map
          (fun pr => (pr.1, ⟨.info, path, n, line⟩ :: pr.2))

/-- The pairs yielded by the generator `read_env_file` before `dictify`
materializes them, together with the emitted log records. -/
def read_env_file_pairs (path content : String) :
    Option (List (String × String) × List LogEntry) :=
  processLines path 1 (pyLines content)

/-- `read_env_file` as called (util.py lines 30-50): `dictify` collects
the yielded pairs into a `dict`, later occurrences of a key overwriting
earlier ones. -/
def read_env_file (path content : String) :
    Option (List (String × String) × List LogEntry) :=
  (read_env_file_pairs path content).map (fun pr => (dictOfPairs [] pr.1, pr.2))

/-- Spec-side predicate: the log record produced for a numbered raw line,
`none` when the line is skipped or yields a pair. -/
def badEntry (path : String) (nl : Nat × String) : Option LogEntry :=
  let line := pyRstrip nl.2
  if line == "" || startsWithHash line then none
  else
    match matchEnvLine line with
    | some _ => none
    | none => some ⟨.info, path, nl.1, line⟩

/-- Spec-side characterization of the log records: one info record per
non-blank, non-comment line (after `rstrip`) that fails the key regex. -/
def badLines (path : String) (lines : List String) : List LogEntry :=
  (List.zip (List.range' 1 lines.length) lines).filterMap (badEntry path)

/-! ## Lemmas about the dictionary model -/

theorem envKeys_cons (p : String × String) (rest : List (String × String)) :
    envKeys (p :: rest) = p.1 :: envKeys rest := rfl

theorem envLookup_cons (q : String × String) (rest : List (String × String)) (k : String) :
    envLookup (q :: rest) k = if q.1 == k then some q.2 else envLookup rest k := rfl

theorem envLookup_append (d l : List (String × String)) (k : String) :
    envLookup (d ++ l) k =
      match envLookup d k with
      | some v => some v
      | none => envLookup l k := by
  induction d with
  | nil => simp [envLookup]
  | cons p rest ih =>
    by_cases hb : p.1 = k <;> simp [envLookup, beq_iff_eq, hb, ih]

theorem envLookup_eq_none_iff (d : List (String × String)) (k : String) :
    envLookup d k = none ↔ k ∉ envKeys d := by
  induction d with
  | nil => simp [envLookup, envKeys]
  | cons p rest ih =>
    rw [envKeys_cons, List.mem_cons, envLookup_cons]
    by_cases hb : p.1 = k
    · rw [if_pos (by simp [hb])]
      constructor
      · intro h
        exact absurd h (by simp)
      · intro hc
        exact absurd (Or.inl hb.symm) hc
    · rw [if_neg (by simp [hb]), ih]
      have hba : ¬(k = p.1) := fun h => hb h.symm
      constructor
      · intro h hc
        rcases hc with hc | hc
        · exact hba hc
        · exact h hc
      · intro h hc
        exact h (Or.inr hc)

theorem mem_envKeys_of_lookup {d : List (String × String)} {k v : String}
    (h : envLookup d k = some v) : k ∈ envKeys d := by
  by_contra hc
  rw [← envLookup_eq_none_iff] at hc
  rw [h] at hc
  exact Option.noConfusion hc

theorem envLookup_map_update_self (d : List (String × String)) (k v : String)
    (hmem : k ∈ envKeys d) :
    envLookup (d.map (updateVal k v)) k = some v := by
  induction d with
  | nil => simp [envKeys] at hmem
  | cons p rest ih =>
    rw [List.map_cons, envLookup_cons]
    by_cases hb : p.1 = k
    · have h1 : updateVal k v p = (k, v) := by simp [updateVal, hb]
      rw [h1, if_pos (by simp)]
    · have h1 : updateVal k v p = p := by simp [updateVal, hb]
      rw [h1, if_neg (by simp [hb])]
      rw [envKeys_cons, List.mem_cons] at hmem
      exact ih (hmem.resolve_left (fun h => hb h.symm))

theorem envLookup_map_update_ne (d : List (String × String)) (k v k' : String)
    (hne : k' ≠ k) :
    envLookup (d.map (updateVal k v)) k' = envLookup d k' := by
  induction d with
  | nil => rfl
  | cons p rest ih =>
    rw [List.map_cons, envLookup_cons, envLookup_cons]
    have hne' : ¬(k = k') := fun h => hne h.symm
    by_cases hb : p.1 = k
    · have h1 : updateVal k v p = (k, v) := by simp [updateVal, hb]
      have h2 : ¬(p.1 = k') := hb ▸ hne'
      rw [h1, if_neg (by simp [hne']), if_neg (by simp [h2])]
      exact ih
    · have h1 : updateVal k v p = p := by simp [updateVal, hb]
      rw [h1]
      by_cases hb' : p.1 = k'
      · rw [if_pos (by simp [hb']), if_pos (by simp [hb'])]
      · rw [if_neg (by simp [hb']), if_neg (by simp [hb'])]
        exact ih

theorem any_key_iff (d : List (String × String)) (k : String) :
    d.any (fun p => p.1 == k) = true ↔ k ∈ envKeys d := by
  simp only [List.any_eq_true, envKeys, List.mem_map, beq_iff_eq]

theorem envLookup_dictInsert_self (d : List (String × String)) (k v : String) :
    envLookup (dictInsert d k v) k = some v := by
  unfold dictInsert
  cases ha : d.any (fun p => p.1 == k)
  · have hnot : k ∉ envKeys d := by
      rw [← any_key_iff, ha]
      simp
    rw [if_neg (by simp [ha]), envLookup_append,
      (envLookup_eq_none_iff d k).mpr hnot]
    simp [envLookup]
  · rw [if_pos (by simp [ha])]
    exact envLookup_map_update_self d k v ((any_key_iff d k).mp ha)

theorem envLookup_dictInsert_ne (d : List (String × String)) (k v k' : String)
    (hne : k' ≠ k) :
    envLookup (dictInsert d k v) k' = envLookup d k' := by
  unfold dictInsert
  have hne' : ¬(k = k') := fun h => hne h.symm
  cases ha : d.any (fun p => p.1 == k)
  · rw [if_neg (by simp [ha]), envLookup_append]
    cases hl : envLookup d k' <;> simp [envLookup, hne']
  · rw [if_pos (by simp [ha])]
    exact envLookup_map_update_ne d k v k' hne

theorem envLookup_dictOfPairs (l : List (String × String)) (init : List (String × String))
    (k : String) :
    envLookup (dictOfPairs init l) k =
      match lastValue l k with
      | some v => some v
      | none => envLookup init k := by
  induction l generalizing init with
  | nil => simp [dictOfPairs, lastValue]
  | cons p rest ih =>
    have hstep : dictOfPairs init (p :: rest) = dictOfPairs (dictInsert init p.1 p.2) rest := rfl
    rw [hstep, ih]
    cases hl : lastValue rest k with
    | some v => simp [lastValue, hl]
    | none =>
      simp only [lastValue, hl]
      by_cases hb : p.1 = k
      · subst hb
        rw [envLookup_dictInsert_self, if_pos (by simp)]
      · rw [envLookup_dictInsert_ne init p.1 p.2 k (fun h => hb h.symm),
          if_neg (by simp [hb])]

theorem lastValue_eq_none_iff (l : List (String × String)) (k : String) :
    lastValue l k = none ↔ k ∉ envKeys l := by
  induction l with
  | nil => simp [lastValue, envKeys]
  | cons p rest ih =>
    rw [envKeys_cons, List.mem_cons]
    cases hl : lastValue rest k with
    | some v =>
      simp only [lastValue, hl]
      constructor
      · intro h
        exact absurd h (by simp)
      · intro hc
        exfalso
        have hmem : k ∈ envKeys rest := by
          by_contra hm
          have h2 := ih.mpr hm
          rw [hl] at h2
          exact Option.noConfusion h2
        exact hc (Or.inr hmem)
    | none =>
      have hnot : k ∉ envKeys rest := ih.mp hl
      simp only [lastValue, hl]
      by_cases hb : p.1 = k
      · rw [if_pos (by simp [hb])]
        constructor
        · intro h
          exact absurd h (by simp)
        · intro hc
          exact absurd (Or.inl hb.symm) hc
      · rw [if_neg (by simp [hb])]
        have hba : ¬(k = p.1) := fun h => hb h.symm
        constructor
        · intro _ hc
          rcases hc with hc | hc
          · exact hba hc
          · exact hnot hc
        · intro _
          rfl

theorem envLookup_eq_lastValue_of_nodup (l : List (String × String)) (k : String)
    (hnd : (envKeys l).Nodup) :
    envLookup l k = lastValue l k := by
  induction l with
  | nil => rfl
  | cons p rest ih =>
    rw [envKeys_cons, List.nodup_cons] at hnd
    obtain ⟨hp, hrest⟩ := hnd
    rw [envLookup_cons]
    by_cases hb : p.1 = k
    · subst hb
      have h1 : lastValue rest p.1 = none := (lastValue_eq_none_iff rest p.1).mpr hp
      rw [if_pos (by simp)]
      simp [lastValue, h1]
    · rw [if_neg (by simp [hb]), ih hrest]
      simp only [lastValue]
      cases hl : lastValue rest k
      · rw [if_neg (by simp [hb])]
      · rfl

theorem envLookup_dictOfPairs_nil (l : List (String × String)) (k : String) :
    envLookup (dictOfPairs [] l) k = lastValue l k := by
  rw [envLookup_dictOfPairs]
  cases lastValue l k <;> rfl

theorem envKeys_map_update (d : List (String × String)) (k v : String) :
    envKeys (d.map (updateVal k v)) = envKeys d := by
  induction d with
  | nil => rfl
  | cons p rest ih =>
    rw [List.map_cons, envKeys_cons, envKeys_cons, ih]
    by_cases hb : p.1 = k
    · have h1 : updateVal k v p = (k, v) := by simp [updateVal, hb]
      rw [h1, hb]
    · have h1 : updateVal k v p = p := by simp [updateVal, hb]
      rw [h1]

theorem envKeys_dictInsert_nodup (d : List (String × String)) (k v : String)
    (hnd : (envKeys d).Nodup) : (envKeys (dictInsert d k v)).Nodup := by
  unfold dictInsert
  cases ha : d.any (fun p => p.1 == k)
  · rw [if_neg (by simp [ha])]
    have hnot : k ∉ envKeys d := by
      rw [← any_key_iff, ha]
      simp
    have hkeys : envKeys (d ++ [(k, v)]) = envKeys d ++ [k] := by
      simp [envKeys]
    rw [hkeys, List.nodup_append]
    refine ⟨hnd, List.nodup_singleton k, ?_⟩
    intro a hmem hmem'
    rw [List.mem_singleton] at hmem'
    exact hnot (hmem' ▸ hmem)
  · rw [if_pos (by simp [ha]), envKeys_map_update]
    exact hnd

theorem envKeys_dictOfPairs_nodup (l init : List (String × String))
    (hnd : (envKeys init).Nodup) : (envKeys (dictOfPairs init l)).Nodup := by
  induction l generalizing init with
  | nil => exact hnd
  | cons p rest ih => exact ih _ (envKeys_dictInsert_nodup init p.1 p.2 hnd)

theorem countKey_eq_zero_of_not_mem (d : List (String × String)) (k : String)
    (h : k ∉ envKeys d) : countKey d k = 0 := by
  induction d with
  | nil => rfl
  | cons p rest ih =>
    rw [envKeys_cons, List.mem_cons] at h
    push_neg at h
    unfold countKey at ih ⊢
    rw [List.countP_cons]
    have hb : ¬(p.1 = k) := fun he => h.1 he.symm
    simp [hb, ih h.2]

theorem countKey_eq_one_of_nodup_mem (d : List (String × String)) (k : String)
    (hnd : (envKeys d).Nodup) (hmem : k ∈ envKeys d) : countKey d k = 1 := by
  induction d with
  | nil => simp [envKeys] at hmem
  | cons p rest ih =>
    rw [envKeys_cons, List.nodup_cons] at hnd
    rw [envKeys_cons, List.mem_cons] at hmem
    unfold countKey at ih ⊢
    rw [List.countP_cons]
    by_cases hb : p.1 = k
    · have h0 : k ∉ envKeys rest := hb ▸ hnd.1
      have hz := countKey_eq_zero_of_not_mem rest k h0
      unfold countKey at hz
      simp [hb, hz]
    · have hmem' : k ∈ envKeys rest := hmem.resolve_left (fun h => hb h.symm)
      simp [hb, ih hnd.2 hmem']

theorem mem_envKeys_of_countKey_pos (d : List (String × String)) (k : String)
    (h : 0 < countKey d k) : k ∈ envKeys d := by
  by_contra hc
  rw [countKey_eq_zero_of_not_mem d k hc] at h
  exact Nat.lt_irrefl 0 h

/-! ## Lemmas for is_power_of_2 -/

theorem natLandSelf (n : Nat) : n &&& n = n :=
  Nat.eq_of_testBit_eq fun i => by rw [Nat.testBit_land, Bool.and_self]

theorem pow2_land_pred (k : Nat) : 2 ^ k &&& (2 ^ k - 1) = 0 := by
  apply Nat.eq_of_testBit_eq
  intro i
  rw [Nat.testBit_land, Nat.testBit_two_pow_sub_one, Nat.zero_testBit]
  rcases eq_or_ne k i with rfl | h
  · simp
  · rw [Nat.testBit_two_pow_of_ne h]
    simp

theorem pow2_of_land_pred (n : Nat) (hpos : 0 < n) (h : n &&& (n - 1) = 0) :
    ∃ k, n = 2 ^ k := by
  induction n using Nat.strong_induction_on with
  | _ n ih =>
    rcases Nat.even_or_odd n with he | ho
    · obtain ⟨m, hm⟩ := he
      have hm0 : 0 < m := by omega
      have hself : m &&& (m - 1) = 0 := by
        apply Nat.eq_of_testBit_eq
        intro i
        have hb := congrArg (fun x => x.testBit (i + 1)) h
        simp only [Nat.testBit_land, Nat.zero_testBit] at hb
        rw [Nat.testBit_succ, Nat.testBit_succ] at hb
        have h1 : n / 2 = m := by omega
        have h2 : (n - 1) / 2 = m - 1 := by omega
        rw [h1, h2] at hb
        rw [Nat.testBit_land, Nat.zero_testBit]
        exact hb
      obtain ⟨j, hj⟩ := ih m (by omega) hm0 hself
      exact ⟨j + 1, by rw [hm, hj, pow_succ]; ring⟩
    · obtain ⟨m, hm⟩ := ho
      rcases Nat.eq_zero_or_pos m with hz | hm0
      · exact ⟨0, by omega⟩
      · exfalso
        have hmm : m &&& m = 0 := by
          apply Nat.eq_of_testBit_eq
          intro i
          have hb := congrArg (fun x => x.testBit (i + 1)) h
          simp only [Nat.testBit_land, Nat.zero_testBit] at hb
          rw [Nat.testBit_succ, Nat.testBit_succ] at hb
          have h1 : n / 2 = m := by omega
          have h2 : (n - 1) / 2 = m := by omega
          rw [h1, h2] at hb
          rw [Nat.testBit_land, Nat.zero_testBit]
          exact hb
        rw [natLandSelf] at hmm
        omega

theorem land_pred_eq_zero_iff (n : Nat) (hpos : 0 < n) :
    (n &&& (n - 1) = 0) ↔ ∃ k, n = 2 ^ k := by
  constructor
  · exact pow2_of_land_pred n hpos
  · rintro ⟨k, rfl⟩
    exact pow2_land_pred k

theorem int_land_ofNat (a b : Nat) : Int.land (a : Int) (b : Int) = ((a &&& b : Nat) : Int) := rfl

/-! ## Claim theorems -/

/-- C1: inside the scope of `scopedenv(O)` the environment maps every key
of O to O's value and keeps every other key's prior value, and after scope
exit (normal or exceptional) the environment equals the pre-call snapshot
exactly, keys introduced by O included. -/
theorem scopedenv_spec (o : List (String × String)) (body : EnvState → Res × EnvState)
    (s : EnvState) (hnd : (envKeys o).Nodup) :
    (∀ k v, envLookup o k = some v → envLookup (dictOfPairs s.environ o) k = some v) ∧
    (∀ k, k ∉ envKeys o → envLookup (dictOfPairs s.environ o) k = envLookup s.environ k) ∧
    (scopedenv o body s).1 = (body ⟨dictOfPairs s.environ o, none⟩).1 ∧
    (scopedenv o body s).2.environ = s.environ := by
  refine ⟨?_, ?_, ?_, ?_⟩
  · intro k v hv
    rw [envLookup_dictOfPairs, ← envLookup_eq_lastValue_of_nodup o k hnd, hv]
  · intro k hk
    rw [envLookup_dictOfPairs, (lastValue_eq_none_iff o k).mpr hk]
  · rcases hb : body ⟨dictOfPairs s.environ o, none⟩ with ⟨r, s3⟩
    simp [scopedenv, hb]
  · rcases hb : body ⟨dictOfPairs s.environ o, none⟩ with ⟨r, s3⟩
    simp [scopedenv, hb]

theorem scopedenv_spec_witness :
    envLookup (dictOfPairs [("A", "1")] [("K", "v")]) "K" = some "v" ∧
    envLookup (dictOfPairs [("A", "1")] [("K", "v")]) "A" = some "1" ∧
    (scopedenv [("K", "v")] (fun st => (Res.exc 7, st))
        ⟨[("A", "1")], some "/t"⟩).2.environ = [("A", "1")] := by
  have h := scopedenv_spec [("K", "v")] (fun st => (Res.exc 7, st))
    ⟨[("A", "1")], some "/t"⟩ (by decide)
  refine ⟨h.1 "K" "v" rfl, ?_, h.2.2.2⟩
  have h2 := h.2.1 "A" (by decide)
  rw [h2]
  rfl
/-- C2: for an existing target directory different from the cwd, `chdir`
runs the body with the cwd changed to the target and restores the original
cwd on scope exit, whether the body returns normally or raises. -/
theorem chdir_restores (d : String) (body : DirWorld → Res × DirWorld) (w : DirWorld)
    (hne : w.cwd ≠ d) (hd : d ∈ w.dirs)
    (hpres : w.cwd ∈ (body { w with cwd := d, chdirCalls := w.chdirCalls + 1 }).2.dirs) :
    (chdir d body w).1 = (body { w with cwd := d, chdirCalls := w.chdirCalls + 1 }).1 ∧
    (chdir d body w).2.cwd = w.cwd := by
  have hbeq : (w.cwd == d) = false := by simp [hne]
  rcases hb : body { w with cwd := d, chdirCalls := w.chdirCalls + 1 } with ⟨r, w2⟩
  rw [hb] at hpres
  constructor <;> simp [chdir, hbeq, osChdir, hd, hb, hpres]

theorem chdir_restores_witness :
    (chdir "/b" (fun w => (Res.exc 9, w)) ⟨["/a", "/b"], "/a", 0⟩).1 =
      ((fun (w : DirWorld) => (Res.exc 9, w)) ⟨["/a", "/b"], "/b", 1⟩).1 ∧
    (chdir "/b" (fun w => (Res.exc 9, w)) ⟨["/a", "/b"], "/a", 0⟩).2.cwd = "/a" :=
  chdir_restores "/b" (fun w => (Res.exc 9, w)) ⟨["/a", "/b"], "/a", 0⟩
    (by decide) (by decide) (by decide)

/-- C6: when the target equals the current working directory, `chdir` is a
pure pass-through: the scope reduces to the body alone and the wrapper
performs zero `os.chdir` operations. -/
theorem chdir_noop (d : String) (body : DirWorld → Res × DirWorld) (w : DirWorld)
    (h : w.cwd = d) :
    chdir d body w = body w ∧
    (chdir d body w).2.chdirCalls = (body w).2.chdirCalls := by
  have hbeq : (w.cwd == d) = true := by simp [h]
  constructor
  · simp [chdir, hbeq]
  · simp [chdir, hbeq]

theorem chdir_noop_witness :
    chdir "/a" (fun w => (Res.ok, w)) ⟨["/a"], "/a", 5⟩ =
      (fun (w : DirWorld) => (Res.ok, w)) ⟨["/a"], "/a", 5⟩ ∧
    (chdir "/a" (fun w => (Res.ok, w)) ⟨["/a"], "/a", 5⟩).2.chdirCalls = 5 :=
  chdir_noop "/a" (fun w => (Res.ok, w)) ⟨["/a"], "/a", 5⟩ rfl

/-- C3: `flock` on a nonexistent path raises ENOENT and leaves the state
(in particular the descriptor table) untouched; on an existing readable
path the body runs with a fresh descriptor and the descriptor is closed on
scope exit whether the body returns or raises. -/
theorem flock_spec (p : String) (body : Nat → FdWorld → Res × FdWorld) (w : FdWorld) :
    (p ∉ w.files → flock p body w = (Res.exc 2, w)) ∧
    (p ∈ w.files → p ∈ w.readable →
      (flock p body w).1 =
        (body w.nextFd { w with openFds := w.nextFd :: w.openFds, nextFd := w.nextFd + 1 }).1 ∧
      ((body w.nextFd { w with openFds := w.nextFd :: w.openFds, nextFd := w.nextFd + 1 }).2.openFds =
          w.nextFd :: w.openFds →
        (flock p body w).2.openFds = w.openFds)) := by
  constructor
  · intro hnot
    simp [flock, osOpen, hnot]
  · intro hmem hread
    rcases hb : body w.nextFd { w with openFds := w.nextFd :: w.openFds, nextFd := w.nextFd + 1 }
      with ⟨r, w2⟩
    constructor
    · simp [flock, osOpen, hmem, hread, hb]
    · intro hfds
      simp only at hfds
      simp [flock, osOpen, hmem, hread, hb, osClose, hfds]

theorem flock_spec_witness :
    flock "/y" (fun _fd st => (Res.ok, st)) ⟨["/x"], ["/x"], [7], 9⟩ =
      (Res.exc 2, ⟨["/x"], ["/x"], [7], 9⟩) ∧
    (flock "/x" (fun _fd st => (Res.exc 3, st)) ⟨["/x"], ["/x"], [7], 9⟩).2.openFds = [7] := by
  constructor
  · exact (flock_spec "/y" (fun _fd st => (Res.ok, st)) ⟨["/x"], ["/x"], [7], 9⟩).1 (by decide)
  · exact ((flock_spec "/x" (fun _fd st => (Res.exc 3, st)) ⟨["/x"], ["/x"], [7], 9⟩).2
      (by decide) (by decide)).2 rfl

/-- C5: inside the scope of `umask(M)` the process file-creation mask is
M (the body is invoked with mask M), and after scope exit (normal or
exceptional) the mask equals its pre-call value. -/
theorem umask_spec (mask : Nat) (body : Nat → Res × Nat) (cur : Nat)
    (_hm : mask ≤ 0o777) :
    umask mask body cur = ((body mask).1, cur) := by
  rcases hb : body mask with ⟨r, m2⟩
  simp [umask, osUmask, hb]

theorem umask_spec_witness :
    umask 0o22 (fun m => (Res.exc 1, m + 1)) 0o77 =
      (((fun (m : Nat) => (Res.exc 1, m + 1)) 0o22).1, 0o77) :=
  umask_spec 0o22 (fun m => (Res.exc 1, m + 1)) 0o77 (by decide)
/-- C4: identity resolution precedence — uid: SUDO_UID, then PKEXEC_UID,
then the real process uid; gid: SUDO_GID, then the real process gid.  In
particular `SUDO_UID=1000` with PKEXEC_UID unset resolves uid to 1000
regardless of the real uid, and with neither variable set uid resolves to
the real process uid. -/
theorem invoking_user_precedence :
    (∀ s p r, s ≠ "" → resolveUid (some s) p r = pyIntOfString s) ∧
    (∀ s r, s ≠ "" → resolveUid none (some s) r = pyIntOfString s) ∧
    (∀ r, resolveUid none none r = some (r : Int)) ∧
    (∀ s r, s ≠ "" → resolveGid (some s) r = pyIntOfString s) ∧
    (∀ r, resolveGid none r = some (r : Int)) ∧
    (∀ r, resolveUid (some "1000") none r = some 1000) := by
  refine ⟨?_, ?_, ?_, ?_, ?_, ?_⟩
  · intro s p r hs
    have hb : (s == "") = false := by simp [hs]
    simp [resolveUid, pyOrStr, hb]
  · intro s r hs
    have hb : (s == "") = false := by simp [hs]
    simp [resolveUid, pyOrStr, hb]
  · intro r
    simp [resolveUid, pyOrStr]
  · intro s r hs
    have hb : (s == "") = false := by simp [hs]
    simp [resolveGid, pyOrStr, hb]
  · intro r
    simp [resolveGid, pyOrStr]
  · intro r
    rfl

theorem invoking_user_precedence_witness :
    resolveUid (some "5") (some "6") 7 = pyIntOfString "5" ∧
    resolveUid none (some "6") 7 = pyIntOfString "6" ∧
    resolveUid none none 9 = some 9 ∧
    resolveGid (some "4") 8 = pyIntOfString "4" ∧
    resolveGid none 8 = some 8 ∧
    resolveUid (some "1000") none 55 = some 1000 :=
  ⟨invoking_user_precedence.1 "5" (some "6") 7 (by decide),
   invoking_user_precedence.2.1 "6" 7 (by decide),
   invoking_user_precedence.2.2.1 9,
   invoking_user_precedence.2.2.2.1 "4" 8 (by decide),
   invoking_user_precedence.2.2.2.2.1 8,
   invoking_user_precedence.2.2.2.2.2 55⟩

/-- C7: for every combination of SUDO_UID, PKEXEC_UID, SUDO_GID and real
process ids for which `INVOKING_USER` initializes, the resolved identity
satisfies `invoked_as_root = (uid == 0)`.  (The fields are plain values
in this embedding and nothing in the module reassigns them.) -/
theorem invoked_as_root_iff (su pk sg : Option String) (ru rg : Nat) (u : InvokingUser)
    (h : mkInvokingUser su pk sg ru rg = some u) :
    u.invoked_as_root = true ↔ u.uid = 0 := by
  unfold mkInvokingUser at h
  cases hu : resolveUid su pk ru with
  | none =>
    rw [hu] at h
    exact absurd h (by simp)
  | some uv =>
    cases hg : resolveGid sg rg with
    | none =>
      rw [hu, hg] at h
      exact absurd h (by simp)
    | some gv =>
      rw [hu, hg] at h
      injection h with h'
      rw [← h']
      simp [beq_iff_eq]

theorem invoked_as_root_iff_witness :
    (({ uid := 0, gid := 4, invoked_as_root := true } : InvokingUser).invoked_as_root = true) ↔
      ({ uid := 0, gid := 4, invoked_as_root := true } : InvokingUser).uid = 0 :=
  invoked_as_root_iff (some "0") none none 3 4
    { uid := 0, gid := 4, invoked_as_root := true } (by decide)
theorem badEntry_level (path : String) (nl : Nat × String) (e : LogEntry)
    (h : badEntry path nl = some e) : e.level = LogLevel.info := by
  simp only [badEntry] at h
  by_cases h1 : (pyRstrip nl.2 == "" || startsWithHash (pyRstrip nl.2)) = true
  · rw [if_pos h1] at h
    exact absurd h (by simp)
  · rw [if_neg h1] at h
    cases hm : matchEnvLine (pyRstrip nl.2) with
    | some nv =>
      rw [hm] at h
      exact absurd h (by simp)
    | none =>
      rw [hm] at h
      injection h with h2
      rw [← h2]

theorem processLines_logs (path : String) (lines : List String) :
    ∀ (n : Nat) (pairs : List (String × String)) (logs : List LogEntry),
      processLines path n lines = some (pairs, logs) →
      logs = (List.zip (List.range' n lines.length) lines).filterMap (badEntry path) := by
  induction lines with
  | nil =>
    intro n pairs logs h
    simp only [processLines, Option.some.injEq, Prod.mk.injEq] at h
    simp [← h.2]
  | cons raw rest ih =>
    intro n pairs logs h
    simp only [processLines] at h
    by_cases hskip : (pyRstrip raw == "" || startsWithHash (pyRstrip raw)) = true
    · rw [if_pos hskip] at h
      have hbe : badEntry path (n, raw) = none := by
        simp only [badEntry]
        rw [if_pos hskip]
      have htail := ih (n + 1) pairs logs h
      rw [List.length_cons, List.range'_succ, List.zip_cons_cons, List.filterMap_cons, hbe]
      exact htail
    · rw [if_neg hskip] at h
      cases hm : matchEnvLine (pyRstrip raw) with
      | some nv =>
        rw [hm] at h
        dsimp only at h
        have hbe : badEntry path (n, raw) = none := by
          simp only [badEntry]
          rw [if_neg hskip, hm]
        cases hv : evalValue nv.2 with
        | none =>
          rw [hv] at h
          exact absurd h (by simp)
        | some v =>
          rw [hv] at h
          cases hrest : processLines path (n + 1) rest with
          | none =>
            rw [hrest] at h
            exact absurd h (by simp)
          | some pr =>
            rw [hrest] at h
            simp only [Option.map_some', Option.some.injEq, Prod.mk.injEq] at h
            have htail := ih (n + 1) pr.1 pr.2 (by rw [hrest])
            rw [List.length_cons, List.range'_succ, List.zip_cons_cons, List.filterMap_cons, hbe]
            rw [← h.2]
            exact htail
      | none =>
        rw [hm] at h
        dsimp only at h
        have hbe : badEntry path (n, raw) = some ⟨LogLevel.info, path, n, pyRstrip raw⟩ := by
          simp only [badEntry]
          rw [if_neg hskip, hm]
        cases hrest : processLines path (n + 1) rest with
        | none =>
          rw [hrest] at h
          exact absurd h (by simp)
        | some pr =>
          rw [hrest] at h
          simp only [Option.map_some', Option.some.injEq, Prod.mk.injEq] at h
          have htail := ih (n + 1) pr.1 pr.2 (by rw [hrest])
          rw [List.length_cons, List.range'_succ, List.zip_cons_cons, List.filterMap_cons, hbe]
          rw [← h.2, htail]
/-- C8 (amended): `read_env_file` skips blank lines and `#`-comment
lines, yields a pair for every line matching the key regex (quoted values
unescaped as literals), and logs-and-drops every other non-blank line at
info level (`logging.info`, not a warning) without raising; on the input
`FOO=bar\n# comment\n\nBAZ="q z"\nbadline\n` it returns
`{FOO: bar, BAZ: q z}` and logs exactly one info record for `badline`. -/
theorem read_env_file_c8 :
    (∀ path content pairs logs,
        read_env_file_pairs path content = some (pairs, logs) →
        logs = badLines path (pyLines content) ∧
          ∀ e ∈ logs, e.level = LogLevel.info) ∧
    read_env_file "f" "FOO=bar\n# comment\n\nBAZ=\"q z\"\nbadline\n" =
      some ([("FOO", "bar"), ("BAZ", "q z")],
        [{ level := LogLevel.info, path := "f", lineNumber := 5, line := "badline" }]) := by
  constructor
  · intro path content pairs logs h
    have hc := processLines_logs path (pyLines content) 1 pairs logs h
    refine ⟨hc, ?_⟩
    intro e he
    rw [hc] at he
    rw [List.mem_filterMap] at he
    obtain ⟨nl, _, hbe⟩ := he
    exact badEntry_level path nl e hbe
  · rfl

theorem read_env_file_c8_witness :
    (([] : List LogEntry) = badLines "p" (pyLines "AB=1\n") ∧
      ∀ e ∈ ([] : List LogEntry), e.level = LogLevel.info) :=
  read_env_file_c8.1 "p" "AB=1\n" [("AB", "1")] [] (by rfl)

/-- C8 counterexample: on the claim's own input the single log record for
`badline` is emitted at info level, so the number of warning-level records
is zero, not one — `read_env_file` uses `logging.info`, not a warning. -/
theorem read_env_file_c8_cex :
    (read_env_file "f" "FOO=bar\n# comment\n\nBAZ=\"q z\"\nbadline\n").map
      (fun pr => pr.2.countP (fun e => e.level == LogLevel.warning)) = some 0 := by
  rfl

/-- C9: `is_power_of_2(x)` returns true iff `x` is positive and an exact
power of two; in particular it returns false for zero and for every
negative integer. -/
theorem is_power_of_2_iff (x : Int) :
    is_power_of_2 x = true ↔ 0 < x ∧ ∃ k : Nat, x = 2 ^ k := by
  unfold is_power_of_2
  rcases le_or_lt x 0 with hx | hx
  · rw [Bool.and_eq_true]
    constructor
    · rintro ⟨h1, _⟩
      rw [decide_eq_true_eq] at h1
      omega
    · rintro ⟨h1, _⟩
      omega
  · obtain ⟨n, rfl⟩ : ∃ n : Nat, x = (n : Int) := ⟨x.toNat, (Int.toNat_of_nonneg hx.le).symm⟩
    have hn : 0 < n := by exact_mod_cast hx
    have hcast : (n : Int) - 1 = ((n - 1 : Nat) : Int) := by omega
    rw [Bool.and_eq_true, decide_eq_true_eq, hcast, int_land_ofNat, beq_iff_eq]
    constructor
    · rintro ⟨_, h2⟩
      have h2' : n &&& (n - 1) = 0 := by exact_mod_cast h2
      obtain ⟨k, hk⟩ := (land_pred_eq_zero_iff n hn).mp h2'
      refine ⟨hx, k, ?_⟩
      rw [hk]
      push_cast
      ring
    · rintro ⟨h1, k, hk⟩
      have hk' : n = 2 ^ k := by exact_mod_cast hk
      refine ⟨hx, ?_⟩
      rw [(land_pred_eq_zero_iff n hn).mpr ⟨k, hk'⟩]
      simp

/-- C10: when the yielded pairs contain the same key more than once, the
materialized dict binds that key exactly once, to the value of its last
occurrence in file order. -/
theorem read_env_file_last_wins (path content k : String)
    (pairs : List (String × String)) (logs : List LogEntry)
    (hp : read_env_file_pairs path content = some (pairs, logs))
    (h2 : 2 ≤ countKey pairs k) :
    read_env_file path content = some (dictOfPairs [] pairs, logs) ∧
    countKey (dictOfPairs [] pairs) k = 1 ∧
    envLookup (dictOfPairs [] pairs) k = lastValue pairs k := by
  refine ⟨?_, ?_, envLookup_dictOfPairs_nil pairs k⟩
  · unfold read_env_file
    rw [hp]
    rfl
  · have hmem : k ∈ envKeys pairs := mem_envKeys_of_countKey_pos pairs k (by omega)
    have hnd : (envKeys (dictOfPairs [] pairs)).Nodup :=
      envKeys_dictOfPairs_nodup pairs [] (by simp [envKeys])
    have hmem2 : k ∈ envKeys (dictOfPairs [] pairs) := by
      cases hlv : lastValue pairs k with
      | none => exact absurd ((lastValue_eq_none_iff pairs k).mp hlv) (by simp [hmem])
      | some v =>
        apply mem_envKeys_of_lookup (v := v)
        rw [envLookup_dictOfPairs_nil, hlv]
    exact countKey_eq_one_of_nodup_mem _ k hnd hmem2

theorem read_env_file_last_wins_witness :
    read_env_file "p" "AB=1\nAB=2\n" = some ([("AB", "2")], []) ∧
    countKey [("AB", "2")] "AB" = 1 ∧
    envLookup [("AB", "2")] "AB" = lastValue [("AB", "1"), ("AB", "2")] "AB" := by
  have h := read_env_file_last_wins "p" "AB=1\nAB=2\n" "AB"
    [("AB", "1"), ("AB", "2")] [] (by rfl) (by decide)
  exact h
end Mkosi
